import Mathlib

/-!
# Verification of the Lychrel-Numbers repository

Shallow embedding of `src/lychrel_tree.py` (string-based digit primitives,
`lychrel_chain`, `build_lychrel_graph`) and `src/lychrel_graph.py`
(arithmetic digit primitives, `palindrome_iterations`, the flagged-seed
computation of `lychrel_graph_save`), together with proofs settling the
frozen claims about the specification.

Python decimal strings of non-negative integers are modelled as lists of
decimal digits (most-significant first); Python's unbounded `int` is
modelled by `Nat` for the non-negative values flowing through the chains,
and by `Int` where the source's behaviour on negative inputs matters.
-/

/-- The decimal digits of `n`, least-significant first (empty for `0`).
This is the digit sequence the Python `while num > 0` loops traverse. -/
def natDigits (n : Nat) : List Nat :=
  if h : n = 0 then [] else n % 10 :: natDigits (n / 10)
termination_by n
decreasing_by exact Nat.div_lt_self (Nat.pos_of_ne_zero h) (by norm_num)

/-- Model of Python `str(n)` for `n ≥ 0`: the most-significant-first decimal
digit string, with `str(0) = "0"`. -/
def strRep (n : Nat) : List Nat :=
  if n = 0 then [0] else (natDigits n).reverse

namespace LychrelTree

/-- `lychrel_tree.is_palindrome`: `str(n) == str(n)[::-1]` (for `n ≥ 0`). -/
def is_palindrome (n : Nat) : Bool :=
  decide (strRep n = (strRep n).reverse)

/-- `lychrel_tree.reverse_num`: `int(str(n)[::-1])` (for `n ≥ 0`); parsing a
most-significant-first digit string is the left fold `acc * 10 + d`. -/
def reverse_num (n : Nat) : Nat :=
  List.foldl (fun a d => a * 10 + d) 0 (strRep n).reverse

end LychrelTree

theorem natDigits_eq_digits (n : Nat) : natDigits n = Nat.digits 10 n := by
  induction n using Nat.strong_induction_on with
  | _ n ih =>
    rw [natDigits]
    by_cases h : n = 0
    · simp [h]
    · rw [dif_neg h, Nat.digits_def' (by norm_num : (1:Nat) < 10) (Nat.pos_of_ne_zero h),
        ih (n / 10) (Nat.div_lt_self (Nat.pos_of_ne_zero h) (by norm_num))]

theorem foldl_digits_eq (L : List Nat) (a : Nat) :
    List.foldl (fun a d => a * 10 + d) a L = a * 10 ^ L.length + Nat.ofDigits 10 L.reverse := by
  induction L generalizing a with
  | nil => simp
  | cons d L ih =>
    rw [List.foldl_cons, ih, List.reverse_cons, Nat.ofDigits_append]
    simp [Nat.ofDigits]
    ring

theorem reverse_num_eq_foldl (n : Nat) :
    LychrelTree.reverse_num n = List.foldl (fun a d => a * 10 + d) 0 (natDigits n) := by
  unfold LychrelTree.reverse_num strRep
  by_cases h : n = 0
  · subst h; simp [natDigits]
  · simp [h]

theorem reverse_num_eq_ofDigits (n : Nat) :
    LychrelTree.reverse_num n = Nat.ofDigits 10 (Nat.digits 10 n).reverse := by
  rw [reverse_num_eq_foldl, foldl_digits_eq, natDigits_eq_digits]
  simp

namespace LychrelGraph

/-- The digit-accumulation loop `while num > 0: rev = rev * 10 + num % 10;
num //= 10; return rev` shared by `reverse_int` and `is_palindrome` in
`lychrel_graph.py`. On positive operands Python floor division and Lean's
Euclidean division on `Int` agree, and the loop never runs on `num ≤ 0`. -/
def revLoop (num rev : Int) : Int :=
  if 0 < num then revLoop (num / 10) (rev * 10 + num % 10) else rev
termination_by num.toNat
decreasing_by omega

/-- `lychrel_graph.reverse_int`. -/
def reverse_int (num : Int) : Int := revLoop num 0

/-- `lychrel_graph.is_palindrome`: returns `False` on negative input,
otherwise compares the loop's accumulated reversal with the original. -/
def is_palindrome (num : Int) : Bool :=
  if num < 0 then false else decide (revLoop num 0 = num)

end LychrelGraph

theorem revLoop_ofNat (num rev : Nat) :
    LychrelGraph.revLoop num rev =
      ((List.foldl (fun a d => a * 10 + d) rev (natDigits num) : Nat) : Int) := by
  induction num using Nat.strong_induction_on generalizing rev with
  | _ num ih =>
    rw [LychrelGraph.revLoop, natDigits]
    by_cases h : num = 0
    · simp [h]
    · rw [dif_neg h, if_pos (by exact_mod_cast Nat.pos_of_ne_zero h), List.foldl_cons]
      have h1 : (num : Int) / 10 = ((num / 10 : Nat) : Int) := by omega
      have h2 : (rev : Int) * 10 + (num : Int) % 10 =
          ((rev * 10 + num % 10 : Nat) : Int) := by push_cast; omega
      rw [h1, h2, ih (num / 10) (Nat.div_lt_self (Nat.pos_of_ne_zero h) (by norm_num))]

theorem reverse_int_ofNat (n : Nat) :
    LychrelGraph.reverse_int (n : Int) = ((LychrelTree.reverse_num n : Nat) : Int) := by
  have h := revLoop_ofNat n 0
  rw [reverse_num_eq_foldl]
  rw [LychrelGraph.reverse_int]
  exact_mod_cast h

theorem strRep_pal_iff (n : Nat) :
    strRep n = (strRep n).reverse ↔ Nat.digits 10 n = (Nat.digits 10 n).reverse := by
  unfold strRep
  by_cases h : n = 0
  · simp [h]
  · rw [if_neg h, natDigits_eq_digits, List.reverse_reverse]
    exact ⟨fun h' => h'.symm, fun h' => h'.symm⟩

theorem reverse_num_eq_self_iff (n : Nat) :
    LychrelTree.reverse_num n = n ↔ Nat.digits 10 n = (Nat.digits 10 n).reverse := by
  rw [reverse_num_eq_ofDigits]
  constructor
  · intro h
    by_cases hn : n = 0
    · simp [hn]
    by_cases h10 : n % 10 = 0
    · exfalso
      have hD := Nat.digits_def' (by norm_num : (1:Nat) < 10) (Nat.pos_of_ne_zero hn)
      rw [hD, h10, List.reverse_cons, Nat.ofDigits_append] at h
      simp only [Nat.ofDigits_singleton, Nat.mul_zero, Nat.add_zero] at h
      have hlt : Nat.ofDigits 10 (Nat.digits 10 (n / 10)).reverse <
          10 ^ (Nat.digits 10 (n / 10)).reverse.length := by
        apply Nat.ofDigits_lt_base_pow_length (by norm_num)
        intro x hx
        exact Nat.digits_lt_base (by norm_num) (List.mem_reverse.mp hx)
      have hlen : 10 ^ (Nat.digits 10 n).length ≤ 10 * n :=
        Nat.base_pow_length_digits_le 10 n (by norm_num) hn
      rw [hD] at hlen
      simp only [List.length_cons, List.length_reverse] at hlt hlen
      rw [pow_succ] at hlen
      omega
    · have hd : Nat.digits 10 (Nat.ofDigits 10 (Nat.digits 10 n).reverse) =
          (Nat.digits 10 n).reverse := by
        apply Nat.digits_ofDigits 10 (by norm_num)
        · intro l hl
          exact Nat.digits_lt_base (by norm_num) (List.mem_reverse.mp hl)
        · intro hne
          rw [List.getLast_reverse]
          have hD := Nat.digits_def' (by norm_num : (1:Nat) < 10) (Nat.pos_of_ne_zero hn)
          simp only [hD, List.head_cons]
          exact h10
      rw [h] at hd
      exact hd
  · intro h
    rw [← h]
    exact Nat.ofDigits_digits 10 n

theorem tree_pal_iff (n : Nat) :
    LychrelTree.is_palindrome n = true ↔ LychrelTree.reverse_num n = n := by
  rw [LychrelTree.is_palindrome, decide_eq_true_iff, strRep_pal_iff, reverse_num_eq_self_iff]

theorem graph_pal_ofNat (n : Nat) :
    LychrelGraph.is_palindrome (n : Int) = LychrelTree.is_palindrome n := by
  have h0 : LychrelGraph.revLoop (n : Int) 0 = ((LychrelTree.reverse_num n : Nat) : Int) := by
    have h := revLoop_ofNat n 0
    rw [reverse_num_eq_foldl]
    exact_mod_cast h
  rw [LychrelGraph.is_palindrome, if_neg (by exact_mod_cast Int.not_lt.mpr (Int.ofNat_nonneg n)),
    h0, LychrelTree.is_palindrome, decide_eq_decide, Nat.cast_inj, strRep_pal_iff,
    ← reverse_num_eq_self_iff]

theorem graph_pal_iff (n : Nat) :
    LychrelGraph.is_palindrome (n : Int) = true ↔
      LychrelGraph.reverse_int (n : Int) = (n : Int) := by
  rw [graph_pal_ofNat, tree_pal_iff, reverse_int_ofNat, Nat.cast_inj]

namespace LychrelTree

/-- The `for _ in range(max_iter)` loop body of `lychrel_chain`: returns the
values appended after the seed, plus the found-palindrome flag. -/
def chainLoop : Nat → Nat → List Nat × Bool
  | _, 0 => ([], false)
  | current, f + 1 =>
    let nv := current + reverse_num current
    if is_palindrome nv then ([nv], true)
    else
      let r := chainLoop nv f
      (nv :: r.1, r.2)

/-- `lychrel_tree.lychrel_chain`: the chain `[n, ...]` of reverse-and-add
values together with the found-palindrome flag. -/
def lychrel_chain (n : Nat) (max_iter : Nat) : List Nat × Bool :=
  (n :: (chainLoop n max_iter).1, (chainLoop n max_iter).2)

end LychrelTree

namespace LychrelTree

theorem chainLoop_length_le (f current : Nat) : (chainLoop current f).1.length ≤ f := by
  induction f generalizing current with
  | zero => simp [chainLoop]
  | succ f ih =>
    simp only [chainLoop]
    by_cases hp : is_palindrome (current + reverse_num current) = true
    · simp [hp]
    · simp only [Bool.not_eq_true] at hp
      have := ih (current + reverse_num current)
      simp only [hp, Bool.false_eq_true, if_false, List.length_cons]
      omega

theorem chainLoop_length_exhausted (f current : Nat) (h : (chainLoop current f).2 = false) :
    (chainLoop current f).1.length = f := by
  induction f generalizing current with
  | zero => simp [chainLoop]
  | succ f ih =>
    simp only [chainLoop] at h ⊢
    by_cases hp : is_palindrome (current + reverse_num current) = true
    · simp [hp] at h
    · simp only [Bool.not_eq_true] at hp
      simp only [hp, Bool.false_eq_true, if_false, List.length_cons] at h ⊢
      rw [ih _ h]

theorem chainLoop_length_pos (f current : Nat) (h : (chainLoop current f).2 = true) :
    1 ≤ (chainLoop current f).1.length := by
  induction f generalizing current with
  | zero => simp [chainLoop] at h
  | succ f ih =>
    simp only [chainLoop] at h ⊢
    by_cases hp : is_palindrome (current + reverse_num current) = true
    · simp [hp]
    · simp only [Bool.not_eq_true] at hp
      simp only [hp, Bool.false_eq_true, if_false, List.length_cons]
      omega

theorem chainLoop_getLast_pal (f current : Nat) (h : (chainLoop current f).2 = true) :
    ∃ x, (chainLoop current f).1.getLast? = some x ∧ is_palindrome x = true := by
  induction f generalizing current with
  | zero => simp [chainLoop] at h
  | succ f ih =>
    simp only [chainLoop] at h ⊢
    by_cases hp : is_palindrome (current + reverse_num current) = true
    · exact ⟨current + reverse_num current, by simp [hp], hp⟩
    · simp only [Bool.not_eq_true] at hp
      simp only [hp, Bool.false_eq_true, if_false] at h ⊢
      obtain ⟨x, hx1, hx2⟩ := ih _ h
      obtain ⟨y, ys, hys⟩ :=
        List.exists_cons_of_ne_nil (List.ne_nil_of_length_pos (chainLoop_length_pos f _ h))
      refine ⟨x, ?_, hx2⟩
      rw [hys] at hx1 ⊢
      rw [List.getLast?_cons_cons, hx1]

theorem chainLoop_mid_not_pal (f current i x : Nat)
    (hget : (chainLoop current f).1[i]? = some x)
    (hlen : i + 1 < (chainLoop current f).1.length) :
    is_palindrome x = false := by
  induction f generalizing current i with
  | zero => simp [chainLoop] at hget
  | succ f ih =>
    simp only [chainLoop] at hget hlen
    by_cases hp : is_palindrome (current + reverse_num current) = true
    · simp [hp] at hget hlen
    · simp only [Bool.not_eq_true] at hp
      simp only [hp, Bool.false_eq_true, if_false, List.length_cons] at hget hlen
      cases i with
      | zero =>
        simp only [List.getElem?_cons_zero, Option.some_inj] at hget
        rw [← hget]
        exact hp
      | succ i =>
        simp only [List.getElem?_cons_succ] at hget
        exact ih _ i hget (by omega)

theorem chainLoop_all_not_pal (f current : Nat) (h : (chainLoop current f).2 = false) :
    ∀ x ∈ (chainLoop current f).1, is_palindrome x = false := by
  induction f generalizing current with
  | zero => simp [chainLoop]
  | succ f ih =>
    simp only [chainLoop] at h ⊢
    by_cases hp : is_palindrome (current + reverse_num current) = true
    · simp [hp] at h
    · simp only [Bool.not_eq_true] at hp
      simp only [hp, Bool.false_eq_true, if_false] at h ⊢
      intro x hx
      rcases List.mem_cons.mp hx with hx | hx
      · rw [hx]; exact hp
      · exact ih _ h x hx

theorem chainLoop_consec (f current i u v : Nat)
    (hu : (current :: (chainLoop current f).1)[i]? = some u)
    (hv : (current :: (chainLoop current f).1)[i + 1]? = some v) :
    v = u + reverse_num u := by
  induction f generalizing current i with
  | zero =>
    simp only [chainLoop] at hv
    rcases i with _ | i <;> simp at hv
  | succ f ih =>
    simp only [chainLoop] at hu hv
    by_cases hp : is_palindrome (current + reverse_num current) = true
    · simp only [hp, if_true] at hu hv
      rcases i with _ | i
      · simp at hu hv
        rw [← hu, ← hv]
      · rcases i with _ | i <;> simp at hv
    · simp only [Bool.not_eq_true] at hp
      simp only [hp, Bool.false_eq_true, if_false] at hu hv
      rcases i with _ | i
      · simp at hu hv
        rw [← hu, ← hv]
      · rw [List.getElem?_cons_succ] at hu hv
        exact ih _ i hu hv

end LychrelTree

/-- The seed range `range(start, end + 1)` iterated by both
`build_lychrel_graph` and `lychrel_graph_save`. -/
def seedList (start endv : Nat) : List Nat := List.range' start (endv + 1 - start)

namespace LychrelGraph

/-- The `for i in range(1, max_iter + 1)` loop of `palindrome_iterations`:
`current` has already absorbed the updates of earlier iterations and `i` is
the next iteration index. -/
def palIterLoop (current : Int) (i max_iter : Nat) : Nat :=
  if i ≤ max_iter then
    if is_palindrome (current + reverse_int current) then i
    else palIterLoop (current + reverse_int current) (i + 1) max_iter
  else max_iter
termination_by max_iter + 1 - i
decreasing_by omega

/-- `lychrel_graph.palindrome_iterations`: the iteration index of the first
palindrome, or `max_iter` when the loop completes without one. -/
def palindrome_iterations (n : Int) (max_iter : Nat) : Nat :=
  palIterLoop n 1 max_iter

/-- The `no_palindrome_nums` list collected by `lychrel_graph_save`: the
seeds whose reported iteration count equals `max_iter`. -/
def no_palindrome_nums (start endv max_iter : Nat) : List Nat :=
  (seedList start endv).filter fun n =>
    decide (palindrome_iterations (n : Int) max_iter = max_iter)

end LychrelGraph

theorem palIterLoop_eq_chainLoop (rem : Nat) : ∀ (c i m : Nat), m + 1 = i + rem →
    LychrelGraph.palIterLoop (c : Int) i m =
      if (LychrelTree.chainLoop c rem).2 then i + (LychrelTree.chainLoop c rem).1.length - 1
      else m := by
  induction rem with
  | zero =>
    intro c i m h
    rw [LychrelGraph.palIterLoop, if_neg (by omega)]
    simp [LychrelTree.chainLoop]
  | succ rem ih =>
    intro c i m h
    have hc : (c : Int) + LychrelGraph.reverse_int (c : Int) =
        ((c + LychrelTree.reverse_num c : Nat) : Int) := by
      rw [reverse_int_ofNat]; push_cast; ring
    rw [LychrelGraph.palIterLoop, if_pos (by omega), hc, graph_pal_ofNat]
    simp only [LychrelTree.chainLoop]
    by_cases hp : LychrelTree.is_palindrome (c + LychrelTree.reverse_num c) = true
    · simp [hp]
    · simp only [Bool.not_eq_true] at hp
      rw [if_neg (by simp [hp]), ih (c + LychrelTree.reverse_num c) (i + 1) m (by omega)]
      simp only [hp, Bool.false_eq_true, if_false]
      by_cases hf : (LychrelTree.chainLoop (c + LychrelTree.reverse_num c) rem).2 = true
      · have h1 := LychrelTree.chainLoop_length_pos rem (c + LychrelTree.reverse_num c) hf
        simp only [hf, if_true, List.length_cons]
        omega
      · simp only [Bool.not_eq_true] at hf
        simp [hf]

theorem palindrome_iterations_eq (n b : Nat) :
    LychrelGraph.palindrome_iterations (n : Int) b =
      if (LychrelTree.lychrel_chain n b).2 then (LychrelTree.lychrel_chain n b).1.length - 1
      else b := by
  rw [LychrelGraph.palindrome_iterations, palIterLoop_eq_chainLoop b n 1 b (by omega)]
  simp only [LychrelTree.lychrel_chain, List.length_cons]
  by_cases hf : (LychrelTree.chainLoop n b).2 = true
  · have h1 := LychrelTree.chainLoop_length_pos b n hf
    simp only [hf, if_true]
    omega
  · simp [hf]

/-- Pointwise combination of two optional levels by minimum; this is the
order-insensitive effect of the `level_of` min-updates. -/
def optMin : Option Nat → Option Nat → Option Nat
  | none, b => b
  | some a, none => some a
  | some a, some b => some (min a b)

theorem optMin_none_right (a : Option Nat) : optMin a none = a := by
  cases a <;> rfl

theorem optMin_absorb_ge (a : Option Nat) (i : Nat) (o : Option Nat)
    (h : ∀ j, o = some j → i ≤ j) : optMin (optMin a (some i)) o = optMin a (some i) := by
  cases o with
  | none => exact optMin_none_right _
  | some j =>
    have hij := h j rfl
    cases a <;> simp only [optMin, Option.some_inj] <;> omega

namespace LychrelTree

/-- The `adjacency` / `level_of` / `lychrel_seeds` triple returned by
`build_lychrel_graph`: the dict-of-sets `adjacency` is modelled by its edge
set, the `level_of` dict by a partial map, `lychrel_seeds` by a finite set. -/
@[ext]
structure LGraph where
  adjacency : Finset (Nat × Nat)
  level : Nat → Option Nat
  seeds : Finset Nat

/-- The empty accumulators `adjacency = {}`, `level_of = {}`,
`lychrel_seeds = set()` that `build_lychrel_graph` starts from. -/
def emptyGraph : LGraph := ⟨∅, fun _ => none, ∅⟩

/-- The `level_of` update of `build_lychrel_graph`: set the level of `node`
to `i` if unset, else keep the minimum of the stored level and `i`. -/
def updateLevel (lv : Nat → Option Nat) (node i : Nat) : Nat → Option Nat :=
  fun x =>
    if x = node then
      match lv node with
      | none => some i
      | some j => some (min j i)
    else lv x

theorem updateLevel_apply (lv : Nat → Option Nat) (node i x : Nat) :
    updateLevel lv node i x = if x = node then optMin (lv node) (some i) else lv x := by
  unfold updateLevel
  by_cases h : x = node
  · rw [if_pos h, if_pos h]
    cases lv node <;> rfl
  · rw [if_neg h, if_neg h]

/-- The `for i, node in enumerate(chain)` loop of `build_lychrel_graph`,
started at index `i`: each node's level is min-updated with its index, each
consecutive pair becomes an edge and the successor's level is min-updated
with its index as well. -/
def processChain : LGraph → List Nat → Nat → LGraph
  | g, [], _ => g
  | g, [node], i => { g with level := updateLevel g.level node i }
  | g, node :: nxt :: rest, i =>
    processChain
      { g with
        adjacency := insert (node, nxt) g.adjacency
        level := updateLevel (updateLevel g.level node i) nxt (i + 1) }
      (nxt :: rest) (i + 1)

/-- One iteration of the seed loop of `build_lychrel_graph`: record the seed
when its chain found no palindrome, then fold its chain into the graph. -/
def buildStep (max_iter : Nat) (g : LGraph) (n : Nat) : LGraph :=
  processChain
    { g with
      seeds := if (lychrel_chain n max_iter).2 then g.seeds else insert n g.seeds }
    (lychrel_chain n max_iter).1 0

/-- `lychrel_tree.build_lychrel_graph`. -/
def build_lychrel_graph (start endv max_iter : Nat) : LGraph :=
  (seedList start endv).foldl (buildStep max_iter) emptyGraph

/-- The edges contributed by one chain: its consecutive pairs. -/
def chainEdges : List Nat → Finset (Nat × Nat)
  | [] => ∅
  | [_] => ∅
  | u :: v :: rest => insert (u, v) (chainEdges (v :: rest))

/-- The level contribution of one chain started at index `i`: the index of
the first occurrence of `x`, if any. -/
def occMin (x : Nat) : List Nat → Nat → Option Nat
  | [], _ => none
  | y :: ys, i => if y = x then some i else occMin x ys (i + 1)

theorem occMin_ge (x : Nat) (c : List Nat) : ∀ i j, occMin x c i = some j → i ≤ j := by
  induction c with
  | nil => intro i j h; simp [occMin] at h
  | cons y ys ih =>
    intro i j h
    simp only [occMin] at h
    by_cases hy : y = x
    · rw [if_pos hy, Option.some_inj] at h
      omega
    · rw [if_neg hy] at h
      have := ih (i + 1) j h
      omega

theorem processChain_seeds (c : List Nat) : ∀ g i, (processChain g c i).seeds = g.seeds := by
  induction c with
  | nil => intro g i; rfl
  | cons y ys ih =>
    intro g i
    cases ys with
    | nil => rfl
    | cons z zs => rw [processChain, ih]

theorem processChain_adj (c : List Nat) : ∀ g i,
    (processChain g c i).adjacency = g.adjacency ∪ chainEdges c := by
  induction c with
  | nil => intro g i; simp [processChain, chainEdges]
  | cons y ys ih =>
    intro g i
    cases ys with
    | nil => simp [processChain, chainEdges]
    | cons z zs =>
      rw [processChain, chainEdges, ih]
      ext p
      simp only [Finset.mem_union, Finset.mem_insert]
      tauto

theorem processChain_level (c : List Nat) : ∀ g i x,
    (processChain g c i).level x = optMin (g.level x) (occMin x c i) := by
  induction c with
  | nil => intro g i x; rw [processChain, occMin, optMin_none_right]
  | cons y ys ih =>
    intro g i x
    cases ys with
    | nil =>
      rw [processChain]
      show updateLevel g.level y i x = _
      rw [occMin, occMin, updateLevel_apply]
      by_cases h : x = y
      · subst h
        simp only [eq_self_iff_true, ite_true]
      · rw [if_neg h, if_neg (fun hh : y = x => h hh.symm), optMin_none_right]
    | cons z zs =>
      rw [processChain, ih]
      by_cases hxy : x = y <;> by_cases hxz : x = z
      · subst hxy; subst hxz
        simp only [occMin, updateLevel_apply, eq_self_iff_true, ite_true]
        rw [optMin_absorb_ge _ i _ (fun j hj => by injection hj with hj; omega),
          optMin_absorb_ge _ i _ (fun j hj => by injection hj with hj; omega)]
      · subst hxy
        simp only [occMin, updateLevel_apply, if_neg hxz,
          if_neg (fun h : z = x => hxz h.symm), eq_self_iff_true, ite_true]
        exact optMin_absorb_ge _ i _
          (fun j hj => by have := occMin_ge x zs (i + 2) j hj; omega)
      · subst hxz
        simp only [occMin, updateLevel_apply, if_neg hxy,
          if_neg (fun h : y = x => hxy h.symm), eq_self_iff_true, ite_true]
        exact optMin_absorb_ge _ (i + 1) _ (fun j hj => by injection hj with hj; omega)
      · simp only [occMin, updateLevel_apply, if_neg hxy, if_neg hxz,
          if_neg (fun h : y = x => hxy h.symm), if_neg (fun h : z = x => hxz h.symm)]

theorem occMin_get (x : Nat) (cl : List Nat) : ∀ i j, occMin x cl i = some j →
    cl[j - i]? = some x := by
  induction cl with
  | nil => intro i j h; simp [occMin] at h
  | cons y ys ih =>
    intro i j h
    rw [occMin] at h
    by_cases hy : y = x
    · rw [if_pos hy, Option.some_inj] at h
      subst h
      simp [hy]
    · rw [if_neg hy] at h
      have hge := occMin_ge x ys (i + 1) j h
      have hys := ih (i + 1) j h
      have hji : j - i = (j - (i + 1)) + 1 := by omega
      rw [hji, List.getElem?_cons_succ]
      exact hys

theorem occMin_of_get (x : Nat) (cl : List Nat) : ∀ i k, cl[k]? = some x →
    ∃ j, occMin x cl i = some j ∧ j ≤ i + k := by
  induction cl with
  | nil => intro i k h; simp at h
  | cons y ys ih =>
    intro i k h
    rw [occMin]
    by_cases hy : y = x
    · exact ⟨i, by rw [if_pos hy], by omega⟩
    · rw [if_neg hy]
      cases k with
      | zero =>
        rw [List.getElem?_cons_zero, Option.some_inj] at h
        exact absurd h hy
      | succ k =>
        rw [List.getElem?_cons_succ] at h
        obtain ⟨j, hj1, hj2⟩ := ih (i + 1) k h
        exact ⟨j, hj1, by omega⟩

theorem occMin_min (x : Nat) (cl : List Nat) : ∀ i j k, occMin x cl i = some j →
    cl[k]? = some x → j ≤ i + k := by
  induction cl with
  | nil => intro i j k h; simp [occMin] at h
  | cons y ys ih =>
    intro i j k h hk
    rw [occMin] at h
    by_cases hy : y = x
    · rw [if_pos hy, Option.some_inj] at h
      omega
    · rw [if_neg hy] at h
      cases k with
      | zero =>
        rw [List.getElem?_cons_zero, Option.some_inj] at hk
        exact absurd hk hy
      | succ k =>
        rw [List.getElem?_cons_succ] at hk
        have := ih (i + 1) j k h hk
        omega

theorem optMin_assoc (a b c : Option Nat) :
    optMin (optMin a b) c = optMin a (optMin b c) := by
  cases a <;> cases b <;> cases c <;> simp [optMin, Nat.min_assoc]

theorem optMin_attained (a b : Option Nat) (l : Nat) (h : optMin a b = some l) :
    a = some l ∨ b = some l := by
  cases a with
  | none => exact Or.inr h
  | some a' =>
    cases b with
    | none => exact Or.inl h
    | some b' =>
      simp only [optMin, Option.some_inj] at h
      rcases Nat.le_total a' b' with hle | hle
      · exact Or.inl (by rw [← h, Nat.min_eq_left hle])
      · exact Or.inr (by rw [← h, Nat.min_eq_right hle])

theorem optMin_le_left (a b : Option Nat) (l j : Nat) (h : optMin a b = some l)
    (ha : a = some j) : l ≤ j := by
  subst ha
  cases b <;> simp only [optMin, Option.some_inj] at h <;> omega

theorem optMin_le_right (a b : Option Nat) (l j : Nat) (h : optMin a b = some l)
    (hb : b = some j) : l ≤ j := by
  subst hb
  cases a <;> simp only [optMin, Option.some_inj] at h <;> omega

theorem optMin_some_of_left (a b : Option Nat) (j : Nat) (ha : a = some j) :
    ∃ l ≤ j, optMin a b = some l := by
  subst ha
  cases b with
  | none => exact ⟨j, le_refl j, rfl⟩
  | some b' => exact ⟨min j b', Nat.min_le_left j b', rfl⟩

theorem optMin_some_of_right (a b : Option Nat) (j : Nat) (hb : b = some j) :
    ∃ l ≤ j, optMin a b = some l := by
  subst hb
  cases a with
  | none => exact ⟨j, le_refl j, rfl⟩
  | some a' => exact ⟨min a' j, Nat.min_le_right a' j, rfl⟩

/-- The edges contributed by the chains of a list of seeds. -/
def listEdges (b : Nat) : List Nat → Finset (Nat × Nat)
  | [] => ∅
  | n :: L => chainEdges (lychrel_chain n b).1 ∪ listEdges b L

/-- The pointwise minimal level of `x` over the chains of a list of seeds. -/
def listLevel (b x : Nat) : List Nat → Option Nat
  | [] => none
  | n :: L => optMin (occMin x (lychrel_chain n b).1 0) (listLevel b x L)

/-- The flagged seeds among a list of seeds. -/
def listSeeds (b : Nat) : List Nat → Finset Nat
  | [] => ∅
  | n :: L => (if (lychrel_chain n b).2 then ∅ else {n}) ∪ listSeeds b L

theorem foldl_buildStep_adj (b : Nat) (L : List Nat) : ∀ g,
    (L.foldl (buildStep b) g).adjacency = g.adjacency ∪ listEdges b L := by
  induction L with
  | nil => intro g; simp [listEdges]
  | cons n L ih =>
    intro g
    rw [List.foldl_cons, ih, listEdges, buildStep, processChain_adj]
    dsimp only
    rw [Finset.union_assoc]

theorem foldl_buildStep_level (b : Nat) (L : List Nat) : ∀ g x,
    (L.foldl (buildStep b) g).level x = optMin (g.level x) (listLevel b x L) := by
  induction L with
  | nil => intro g x; simp [listLevel, optMin_none_right]
  | cons n L ih =>
    intro g x
    rw [List.foldl_cons, ih, listLevel, buildStep, processChain_level]
    dsimp only
    rw [optMin_assoc]

theorem foldl_buildStep_seeds (b : Nat) (L : List Nat) : ∀ g,
    (L.foldl (buildStep b) g).seeds = g.seeds ∪ listSeeds b L := by
  induction L with
  | nil => intro g; simp [listSeeds]
  | cons n L ih =>
    intro g
    rw [List.foldl_cons, ih, listSeeds, buildStep, processChain_seeds]
    dsimp only
    by_cases hf : (lychrel_chain n b).2 = true
    · simp [hf]
    · simp only [Bool.not_eq_true] at hf
      simp only [hf, Bool.false_eq_true, if_false]
      ext m
      simp only [Finset.mem_union, Finset.mem_insert, Finset.mem_singleton]
      tauto

theorem build_adj (s e b : Nat) :
    (build_lychrel_graph s e b).adjacency = listEdges b (seedList s e) := by
  rw [build_lychrel_graph, foldl_buildStep_adj]
  exact Finset.empty_union _

theorem build_level (s e b x : Nat) :
    (build_lychrel_graph s e b).level x = listLevel b x (seedList s e) := by
  rw [build_lychrel_graph, foldl_buildStep_level]
  rfl

theorem build_seeds (s e b : Nat) :
    (build_lychrel_graph s e b).seeds = listSeeds b (seedList s e) := by
  rw [build_lychrel_graph, foldl_buildStep_seeds]
  exact Finset.empty_union _

theorem chainEdges_mem (cl : List Nat) (u v : Nat) :
    (u, v) ∈ chainEdges cl ↔ ∃ i, cl[i]? = some u ∧ cl[i + 1]? = some v := by
  induction cl with
  | nil => simp [chainEdges]
  | cons y ys ih =>
    cases ys with
    | nil =>
      rw [chainEdges]
      constructor
      · intro h
        exact absurd h (Finset.not_mem_empty _)
      · rintro ⟨i, h1, h2⟩
        rw [List.getElem?_cons_succ] at h2
        simp at h2
    | cons z zs =>
      rw [chainEdges, Finset.mem_insert, ih]
      constructor
      · rintro (h | ⟨i, h1, h2⟩)
        · obtain ⟨h1, h2⟩ := Prod.mk.inj h
          refine ⟨0, ?_, ?_⟩
          · rw [List.getElem?_cons_zero, h1]
          · rw [List.getElem?_cons_succ, List.getElem?_cons_zero, h2]
        · exact ⟨i + 1, by rw [List.getElem?_cons_succ]; exact h1,
            by rw [List.getElem?_cons_succ]; exact h2⟩
      · rintro ⟨i, h1, h2⟩
        cases i with
        | zero =>
          left
          rw [List.getElem?_cons_zero, Option.some_inj] at h1
          rw [List.getElem?_cons_succ, List.getElem?_cons_zero, Option.some_inj] at h2
          simp only [Prod.mk.injEq]
          exact ⟨h1.symm, h2.symm⟩
        | succ i =>
          right
          rw [List.getElem?_cons_succ] at h1 h2
          exact ⟨i, h1, h2⟩

theorem listEdges_mem (b : Nat) (L : List Nat) (u v : Nat) :
    (u, v) ∈ listEdges b L ↔ ∃ n ∈ L, (u, v) ∈ chainEdges (lychrel_chain n b).1 := by
  induction L with
  | nil => simp [listEdges]
  | cons n L ih =>
    rw [listEdges, Finset.mem_union, ih]
    constructor
    · rintro (h | ⟨m, hm, h⟩)
      · exact ⟨n, List.mem_cons_self n L, h⟩
      · exact ⟨m, List.mem_cons_of_mem n hm, h⟩
    · rintro ⟨m, hm, h⟩
      rcases List.mem_cons.mp hm with rfl | hm
      · exact Or.inl h
      · exact Or.inr ⟨m, hm, h⟩

theorem listSeeds_mem (b : Nat) (L : List Nat) (m : Nat) :
    m ∈ listSeeds b L ↔ m ∈ L ∧ (lychrel_chain m b).2 = false := by
  induction L with
  | nil => simp [listSeeds]
  | cons n L ih =>
    rw [listSeeds, Finset.mem_union, ih]
    by_cases hf : (lychrel_chain n b).2 = true
    · simp only [hf, if_true, Finset.not_mem_empty, false_or, List.mem_cons]
      constructor
      · rintro ⟨hm, h⟩
        exact ⟨Or.inr hm, h⟩
      · rintro ⟨hm | hm, h⟩
        · rw [hm] at h
          rw [h] at hf
          exact absurd hf (by simp)
        · exact ⟨hm, h⟩
    · simp only [Bool.not_eq_true] at hf
      simp only [hf, Bool.false_eq_true, if_false, Finset.mem_singleton, List.mem_cons]
      constructor
      · rintro (rfl | ⟨hm, h⟩)
        · exact ⟨Or.inl rfl, hf⟩
        · exact ⟨Or.inr hm, h⟩
      · rintro ⟨rfl | hm, h⟩
        · exact Or.inl rfl
        · exact Or.inr ⟨hm, h⟩

theorem listLevel_attained (b x : Nat) (L : List Nat) (l : Nat)
    (h : listLevel b x L = some l) :
    ∃ n ∈ L, occMin x (lychrel_chain n b).1 0 = some l := by
  induction L with
  | nil => simp [listLevel] at h
  | cons n L ih =>
    rw [listLevel] at h
    rcases optMin_attained _ _ _ h with h' | h'
    · exact ⟨n, List.mem_cons_self n L, h'⟩
    · obtain ⟨m, hm, hh⟩ := ih h'
      exact ⟨m, List.mem_cons_of_mem n hm, hh⟩

theorem listLevel_ub (b x : Nat) (L : List Nat) (n : Nat) (hn : n ∈ L) (j : Nat)
    (hj : occMin x (lychrel_chain n b).1 0 = some j) :
    ∃ l ≤ j, listLevel b x L = some l := by
  induction L with
  | nil => simp at hn
  | cons m L ih =>
    rw [listLevel]
    rcases List.mem_cons.mp hn with rfl | hn'
    · exact optMin_some_of_left _ _ j hj
    · obtain ⟨l, hl1, hl2⟩ := ih hn'
      obtain ⟨l', hl1', hl2'⟩ := optMin_some_of_right (occMin x (lychrel_chain m b).1 0) _ l hl2
      exact ⟨l', by omega, hl2'⟩

theorem listLevel_lb (b x : Nat) (L : List Nat) : ∀ l, listLevel b x L = some l →
    ∀ n ∈ L, ∀ j, occMin x (lychrel_chain n b).1 0 = some j → l ≤ j := by
  induction L with
  | nil => intro l h n hn; simp at hn
  | cons m L ih =>
    intro l h n hn j hj
    rw [listLevel] at h
    rcases List.mem_cons.mp hn with rfl | hn'
    · exact optMin_le_left _ _ l j h hj
    · obtain ⟨l', hl'⟩ : ∃ l', listLevel b x L = some l' := by
        obtain ⟨l'', _, hl''⟩ := listLevel_ub b x L n hn' j hj
        exact ⟨l'', hl''⟩
      have h1 := optMin_le_right _ _ l l' h hl'
      have h2 := ih l' hl' n hn' j hj
      omega

theorem mem_seedList (s e n : Nat) : n ∈ seedList s e ↔ s ≤ n ∧ n ≤ e := by
  rw [seedList, List.mem_range'_1]
  omega

theorem build_level_attained (s e b x l : Nat)
    (h : (build_lychrel_graph s e b).level x = some l) :
    ∃ n ∈ seedList s e, (lychrel_chain n b).1[l]? = some x := by
  rw [build_level] at h
  obtain ⟨n, hn, ho⟩ := listLevel_attained b x _ l h
  have hg := occMin_get x _ 0 l ho
  rw [Nat.sub_zero] at hg
  exact ⟨n, hn, hg⟩

theorem build_level_min (s e b x l : Nat)
    (h : (build_lychrel_graph s e b).level x = some l) (n : Nat)
    (hn : n ∈ seedList s e) (k : Nat) (hk : (lychrel_chain n b).1[k]? = some x) :
    l ≤ k := by
  rw [build_level] at h
  obtain ⟨j, hj1, hj2⟩ := occMin_of_get x _ 0 k hk
  have := listLevel_lb b x _ l h n hn j hj1
  omega

theorem build_level_le (s e b x n : Nat) (hn : n ∈ seedList s e) (k : Nat)
    (hk : (lychrel_chain n b).1[k]? = some x) :
    ∃ l ≤ k, (build_lychrel_graph s e b).level x = some l := by
  obtain ⟨j, hj1, hj2⟩ := occMin_of_get x _ 0 k hk
  obtain ⟨l, hl1, hl2⟩ := listLevel_ub b x _ n hn j hj1
  rw [← build_level] at hl2
  exact ⟨l, by omega, hl2⟩

theorem build_adj_mem (s e b u v : Nat) :
    (u, v) ∈ (build_lychrel_graph s e b).adjacency ↔
      ∃ n ∈ seedList s e, ∃ i, (lychrel_chain n b).1[i]? = some u ∧
        (lychrel_chain n b).1[i + 1]? = some v := by
  rw [build_adj, listEdges_mem]
  constructor
  · rintro ⟨n, hn, h⟩
    exact ⟨n, hn, (chainEdges_mem _ u v).mp h⟩
  · rintro ⟨n, hn, h⟩
    exact ⟨n, hn, (chainEdges_mem _ u v).mpr h⟩

theorem build_seeds_mem (s e b m : Nat) :
    m ∈ (build_lychrel_graph s e b).seeds ↔
      m ∈ seedList s e ∧ (lychrel_chain m b).2 = false := by
  rw [build_seeds, listSeeds_mem]

theorem optMin_comm (a b : Option Nat) : optMin a b = optMin b a := by
  cases a <;> cases b <;> simp [optMin, Nat.min_comm]

/-- The merge operation the specification describes for combining partial
graphs: edge-set union, pointwise level minimum, flagged-seed union. -/
def mergeG (g1 g2 : LGraph) : LGraph :=
  ⟨g1.adjacency ∪ g2.adjacency, fun x => optMin (g1.level x) (g2.level x),
    g1.seeds ∪ g2.seeds⟩

/-- The seed loop of `build_lychrel_graph` run over an arbitrary list of
seeds instead of `range(start, end + 1)`. -/
def buildFromList (b : Nat) (L : List Nat) : LGraph :=
  L.foldl (buildStep b) emptyGraph

theorem buildFromList_adj (b : Nat) (L : List Nat) :
    (buildFromList b L).adjacency = listEdges b L := by
  rw [buildFromList, foldl_buildStep_adj]
  exact Finset.empty_union _

theorem buildFromList_level (b : Nat) (L : List Nat) (x : Nat) :
    (buildFromList b L).level x = listLevel b x L := by
  rw [buildFromList, foldl_buildStep_level]
  rfl

theorem buildFromList_seeds (b : Nat) (L : List Nat) :
    (buildFromList b L).seeds = listSeeds b L := by
  rw [buildFromList, foldl_buildStep_seeds]
  exact Finset.empty_union _

theorem listEdges_append (b : Nat) (L1 L2 : List Nat) :
    listEdges b (L1 ++ L2) = listEdges b L1 ∪ listEdges b L2 := by
  induction L1 with
  | nil => simp [listEdges]
  | cons n L ih => rw [List.cons_append, listEdges, listEdges, ih, Finset.union_assoc]

theorem listLevel_append (b x : Nat) (L1 L2 : List Nat) :
    listLevel b x (L1 ++ L2) = optMin (listLevel b x L1) (listLevel b x L2) := by
  induction L1 with
  | nil => rfl
  | cons n L ih => rw [List.cons_append, listLevel, listLevel, ih, optMin_assoc]

theorem listSeeds_append (b : Nat) (L1 L2 : List Nat) :
    listSeeds b (L1 ++ L2) = listSeeds b L1 ∪ listSeeds b L2 := by
  induction L1 with
  | nil => simp [listSeeds]
  | cons n L ih => rw [List.cons_append, listSeeds, listSeeds, ih, Finset.union_assoc]

theorem buildFromList_append (b : Nat) (L1 L2 : List Nat) :
    buildFromList b (L1 ++ L2) = mergeG (buildFromList b L1) (buildFromList b L2) := by
  refine LGraph.ext ?_ ?_ ?_
  · rw [buildFromList_adj, listEdges_append, mergeG, buildFromList_adj, buildFromList_adj]
  · funext x
    show (buildFromList b (L1 ++ L2)).level x =
      optMin ((buildFromList b L1).level x) ((buildFromList b L2).level x)
    rw [buildFromList_level, listLevel_append, buildFromList_level, buildFromList_level]
  · rw [buildFromList_seeds, listSeeds_append, mergeG, buildFromList_seeds,
      buildFromList_seeds]

theorem seedList_split (s m e : Nat) (h1 : s ≤ m) (h2 : m ≤ e) :
    seedList s e = seedList s m ++ seedList (m + 1) e := by
  unfold seedList
  have h := List.range'_append s (m + 1 - s) (e - m) 1
  rw [show s + 1 * (m + 1 - s) = m + 1 by omega] at h
  rw [show e + 1 - s = (e - m) + (m + 1 - s) by omega,
    show e + 1 - (m + 1) = e - m by omega]
  exact h.symm

theorem build_split (s m e b : Nat) (h1 : s ≤ m) (h2 : m ≤ e) :
    build_lychrel_graph s e b =
      mergeG (build_lychrel_graph s m b) (build_lychrel_graph (m + 1) e b) := by
  show buildFromList b (seedList s e) = _
  rw [seedList_split s m e h1 h2, buildFromList_append]
  rfl

theorem listEdges_perm (b : Nat) {L1 L2 : List Nat} (h : L1.Perm L2) :
    listEdges b L1 = listEdges b L2 := by
  induction h with
  | nil => rfl
  | cons n _ ih => rw [listEdges, listEdges, ih]
  | swap n m l =>
    rw [listEdges, listEdges, listEdges, listEdges]
    ext p
    simp only [Finset.mem_union]
    tauto
  | trans _ _ ih1 ih2 => rw [ih1, ih2]

theorem listLevel_perm (b x : Nat) {L1 L2 : List Nat} (h : L1.Perm L2) :
    listLevel b x L1 = listLevel b x L2 := by
  induction h with
  | nil => rfl
  | cons n _ ih => rw [listLevel, listLevel, ih]
  | swap n m l =>
    rw [listLevel, listLevel, listLevel, listLevel, ← optMin_assoc, ← optMin_assoc,
      optMin_comm (occMin x (lychrel_chain m b).1 0) (occMin x (lychrel_chain n b).1 0)]
  | trans _ _ ih1 ih2 => rw [ih1, ih2]

theorem listSeeds_perm (b : Nat) {L1 L2 : List Nat} (h : L1.Perm L2) :
    listSeeds b L1 = listSeeds b L2 := by
  induction h with
  | nil => rfl
  | cons n _ ih => rw [listSeeds, listSeeds, ih]
  | swap n m l =>
    rw [listSeeds, listSeeds, listSeeds, listSeeds]
    ext p
    simp only [Finset.mem_union]
    tauto
  | trans _ _ ih1 ih2 => rw [ih1, ih2]

theorem buildFromList_perm (b : Nat) {L1 L2 : List Nat} (h : L1.Perm L2) :
    buildFromList b L1 = buildFromList b L2 := by
  refine LGraph.ext ?_ ?_ ?_
  · rw [buildFromList_adj, buildFromList_adj]
    exact listEdges_perm b h
  · funext x
    rw [buildFromList_level, buildFromList_level]
    exact listLevel_perm b x h
  · rw [buildFromList_seeds, buildFromList_seeds]
    exact listSeeds_perm b h

theorem lychrel_chain_length (n b : Nat) (hb : 1 ≤ b) :
    2 ≤ (lychrel_chain n b).1.length ∧ (lychrel_chain n b).1.length ≤ b + 1 := by
  rw [lychrel_chain]
  have h1 := chainLoop_length_le b n
  simp only [List.length_cons]
  constructor
  · by_cases hf : (chainLoop n b).2 = true
    · have := chainLoop_length_pos b n hf
      omega
    · simp only [Bool.not_eq_true] at hf
      have := chainLoop_length_exhausted b n hf
      omega
  · omega

theorem lychrel_chain_head (n b : Nat) : (lychrel_chain n b).1[0]? = some n := by
  rw [lychrel_chain, List.getElem?_cons_zero]

theorem lychrel_chain_mid_not_pal (n b j x : Nat) (hj : 1 ≤ j)
    (hlen : j + 1 < (lychrel_chain n b).1.length)
    (hget : (lychrel_chain n b).1[j]? = some x) : is_palindrome x = false := by
  rw [lychrel_chain] at hget hlen
  obtain ⟨j', rfl⟩ : ∃ j', j = j' + 1 := ⟨j - 1, by omega⟩
  rw [List.getElem?_cons_succ] at hget
  simp only [List.length_cons] at hlen
  exact chainLoop_mid_not_pal b n j' x hget (by omega)

theorem lychrel_chain_last_pal (n b : Nat) (hf : (lychrel_chain n b).2 = true) :
    ∃ x, (lychrel_chain n b).1.getLast? = some x ∧ is_palindrome x = true := by
  rw [lychrel_chain] at hf ⊢
  obtain ⟨x, hx1, hx2⟩ := chainLoop_getLast_pal b n hf
  refine ⟨x, ?_, hx2⟩
  have hpos := chainLoop_length_pos b n hf
  obtain ⟨y, ys, hys⟩ :=
    List.exists_cons_of_ne_nil (List.ne_nil_of_length_pos hpos)
  rw [hys] at hx1 ⊢
  rw [List.getLast?_cons_cons]
  exact hx1

theorem lychrel_chain_exhausted_not_pal (n b : Nat) (hf : (lychrel_chain n b).2 = false)
    (j x : Nat) (hj : 1 ≤ j) (hget : (lychrel_chain n b).1[j]? = some x) :
    is_palindrome x = false := by
  rw [lychrel_chain] at hget
  obtain ⟨j', rfl⟩ : ∃ j', j = j' + 1 := ⟨j - 1, by omega⟩
  rw [List.getElem?_cons_succ] at hget
  exact chainLoop_all_not_pal b n hf x (List.getElem?_mem hget)

theorem lychrel_chain_consec (n b i u v : Nat)
    (hu : (lychrel_chain n b).1[i]? = some u)
    (hv : (lychrel_chain n b).1[i + 1]? = some v) : v = u + reverse_num u := by
  rw [lychrel_chain] at hu hv
  exact chainLoop_consec b n i u v hu hv

theorem lychrel_chain_exhausted_length (n b : Nat)
    (hf : (lychrel_chain n b).2 = false) : (lychrel_chain n b).1.length = b + 1 := by
  rw [lychrel_chain]
  simp only [List.length_cons]
  rw [chainLoop_length_exhausted b n hf]

end LychrelTree

theorem mem_no_palindrome_nums (s e b n : Nat) :
    n ∈ LychrelGraph.no_palindrome_nums s e b ↔
      n ∈ seedList s e ∧ LychrelGraph.palindrome_iterations (n : Int) b = b := by
  rw [LychrelGraph.no_palindrome_nums, List.mem_filter, decide_eq_true_iff]

theorem getElem_some_lt {α : Type} (l : List α) (i : Nat) (a : α) (h : l[i]? = some a) :
    i < l.length := by
  by_contra hc
  push_neg at hc
  rw [List.getElem?_eq_none hc] at h
  exact Option.noConfusion h

theorem digits_ofDigits_reverse (n : Nat) (h : n % 10 ≠ 0) :
    Nat.digits 10 (Nat.ofDigits 10 (Nat.digits 10 n).reverse) =
      (Nat.digits 10 n).reverse := by
  have hn : n ≠ 0 := by omega
  apply Nat.digits_ofDigits 10 (by norm_num)
  · intro l hl
    exact Nat.digits_lt_base (by norm_num) (List.mem_reverse.mp hl)
  · intro hne
    rw [List.getLast_reverse]
    have hD := Nat.digits_def' (by norm_num : (1:Nat) < 10) (Nat.pos_of_ne_zero hn)
    simp only [hD, List.head_cons]
    exact h

theorem reverse_num_involution (n : Nat) (h : n % 10 ≠ 0) :
    LychrelTree.reverse_num (LychrelTree.reverse_num n) = n := by
  rw [reverse_num_eq_ofDigits, reverse_num_eq_ofDigits, digits_ofDigits_reverse n h,
    List.reverse_reverse, Nat.ofDigits_digits]

/-- C8: for every `n ≥ 0` the string-based primitives of `lychrel_tree.py`
and the arithmetic primitives of `lychrel_graph.py` compute the same
functions: `reverse_num n == reverse_int n`, the two `is_palindrome`
implementations agree on `n`, and each one holds exactly when the digit
reversal of `n` equals `n`. -/
theorem C8_primitives_agree (n : Nat) :
    LychrelGraph.reverse_int (n : Int) = ((LychrelTree.reverse_num n : Nat) : Int) ∧
    LychrelGraph.is_palindrome (n : Int) = LychrelTree.is_palindrome n ∧
    (LychrelTree.is_palindrome n = true ↔ LychrelTree.reverse_num n = n) ∧
    (LychrelGraph.is_palindrome (n : Int) = true ↔
      LychrelGraph.reverse_int (n : Int) = (n : Int)) :=
  ⟨reverse_int_ofNat n, graph_pal_ofNat n, tree_pal_iff n, graph_pal_iff n⟩

/-- C9: digit reversal is not an involution in general —
`reverse_int (reverse_int 120) = 12 ≠ 120` — but for every `n ≥ 0` whose
last decimal digit is nonzero, `reverse_int (reverse_int n) = n`. -/
theorem C9_reverse_involution :
    (LychrelGraph.reverse_int (LychrelGraph.reverse_int 120) = 12 ∧ (12 : Int) ≠ 120) ∧
    ∀ n : Nat, n % 10 ≠ 0 →
      LychrelGraph.reverse_int (LychrelGraph.reverse_int (n : Int)) = (n : Int) := by
  constructor
  · constructor
    · simp [LychrelGraph.reverse_int, LychrelGraph.revLoop]
    · norm_num
  · intro n h
    rw [reverse_int_ofNat, reverse_int_ofNat, Nat.cast_inj]
    exact reverse_num_involution n h

/-- Witness for C9 at `n = 13`. -/
theorem C9_witness : (13 : Nat) % 10 ≠ 0 ∧
    LychrelGraph.reverse_int (LychrelGraph.reverse_int ((13 : Nat) : Int)) =
      ((13 : Nat) : Int) :=
  ⟨by decide, C9_reverse_involution.2 13 (by decide)⟩

/-- C1: for every seed `n ≥ 0` and bound `b ≥ 1`, `lychrel_chain` returns a
chain of length in `[2, b + 1]` with `chain[0] = n`; when it reports
success, the success index `k = length - 1` satisfies `k ≥ 1` (the seed's
own palindrome status is never tested), `chain[k]` is a palindrome, no
`chain[j]` with `1 ≤ j < k` is one, and `palindrome_iterations` reports
exactly `k`. -/
theorem C1_chain_generator (n b : Nat) (hb : 1 ≤ b) :
    2 ≤ (LychrelTree.lychrel_chain n b).1.length ∧
    (LychrelTree.lychrel_chain n b).1.length ≤ b + 1 ∧
    (LychrelTree.lychrel_chain n b).1[0]? = some n ∧
    ((LychrelTree.lychrel_chain n b).2 = true →
      1 ≤ (LychrelTree.lychrel_chain n b).1.length - 1 ∧
      (∃ x, (LychrelTree.lychrel_chain n b).1[(LychrelTree.lychrel_chain n b).1.length - 1]? =
        some x ∧ LychrelTree.is_palindrome x = true) ∧
      (∀ j x, 1 ≤ j → j < (LychrelTree.lychrel_chain n b).1.length - 1 →
        (LychrelTree.lychrel_chain n b).1[j]? = some x →
        LychrelTree.is_palindrome x = false) ∧
      LychrelGraph.palindrome_iterations (n : Int) b =
        (LychrelTree.lychrel_chain n b).1.length - 1) := by
  obtain ⟨hlen2, hlenb⟩ := LychrelTree.lychrel_chain_length n b hb
  refine ⟨hlen2, hlenb, LychrelTree.lychrel_chain_head n b, ?_⟩
  intro hf
  refine ⟨by omega, ?_, ?_, ?_⟩
  · obtain ⟨x, hx1, hx2⟩ := LychrelTree.lychrel_chain_last_pal n b hf
    rw [List.getLast?_eq_getElem?] at hx1
    exact ⟨x, hx1, hx2⟩
  · intro j x hj hjk hget
    exact LychrelTree.lychrel_chain_mid_not_pal n b j x hj (by omega) hget
  · rw [palindrome_iterations_eq, if_pos hf]

/-- Witness for C1 at seed `5`, bound `2`. -/
theorem C1_witness : 1 ≤ 2 ∧
    (2 ≤ (LychrelTree.lychrel_chain 5 2).1.length ∧
    (LychrelTree.lychrel_chain 5 2).1.length ≤ 2 + 1 ∧
    (LychrelTree.lychrel_chain 5 2).1[0]? = some 5 ∧
    ((LychrelTree.lychrel_chain 5 2).2 = true →
      1 ≤ (LychrelTree.lychrel_chain 5 2).1.length - 1 ∧
      (∃ x, (LychrelTree.lychrel_chain 5 2).1[(LychrelTree.lychrel_chain 5 2).1.length - 1]? =
        some x ∧ LychrelTree.is_palindrome x = true) ∧
      (∀ j x, 1 ≤ j → j < (LychrelTree.lychrel_chain 5 2).1.length - 1 →
        (LychrelTree.lychrel_chain 5 2).1[j]? = some x →
        LychrelTree.is_palindrome x = false) ∧
      LychrelGraph.palindrome_iterations ((5 : Nat) : Int) 2 =
        (LychrelTree.lychrel_chain 5 2).1.length - 1)) :=
  ⟨by norm_num, C1_chain_generator 5 2 (by norm_num)⟩

/-- C2 as stated is false: with range `[1, 1]` and bound `1`, seed `1`'s
chain finds a palindrome (`2`, at step `1 = bound`), yet `1` is reported in
the flagged list `no_palindrome_nums`. -/
theorem C2_counterexample :
    (1 : Nat) ∈ LychrelGraph.no_palindrome_nums 1 1 1 ∧
    (LychrelTree.lychrel_chain 1 1).2 = true := by
  constructor
  · rw [mem_no_palindrome_nums, LychrelTree.mem_seedList, palindrome_iterations_eq]
    refine ⟨⟨le_refl 1, le_refl 1⟩, ?_⟩
    simp [LychrelTree.lychrel_chain, LychrelTree.chainLoop, LychrelTree.is_palindrome,
      LychrelTree.reverse_num, strRep, natDigits]
  · simp [LychrelTree.lychrel_chain, LychrelTree.chainLoop, LychrelTree.is_palindrome,
      LychrelTree.reverse_num, strRep, natDigits]

/-- C2 amended: a seed of `[start, end]` is flagged iff its reported step
count equals the bound, which happens iff its chain status was exhausted OR
the chain's first palindrome occurs at exactly step `bound`; whenever a
palindrome is found, the reported step count is the success index
`k = length - 1`, even when `k = bound`. -/
theorem C2_flagged_iff (s e b n : Nat) (hb : 1 ≤ b) (hn : n ∈ seedList s e) :
    (n ∈ LychrelGraph.no_palindrome_nums s e b ↔
      LychrelGraph.palindrome_iterations (n : Int) b = b) ∧
    (LychrelGraph.palindrome_iterations (n : Int) b = b ↔
      ((LychrelTree.lychrel_chain n b).2 = false ∨
        (LychrelTree.lychrel_chain n b).1.length = b + 1)) ∧
    ((LychrelTree.lychrel_chain n b).2 = true →
      LychrelGraph.palindrome_iterations (n : Int) b =
        (LychrelTree.lychrel_chain n b).1.length - 1) := by
  refine ⟨?_, ?_, ?_⟩
  · rw [mem_no_palindrome_nums]
    exact ⟨fun h => h.2, fun h => ⟨hn, h⟩⟩
  · rw [palindrome_iterations_eq]
    by_cases hf : (LychrelTree.lychrel_chain n b).2 = true
    · obtain ⟨hlen2, hlenb⟩ := LychrelTree.lychrel_chain_length n b hb
      simp only [hf, if_true, true_iff, Bool.true_eq_false, false_or]
      omega
    · simp only [Bool.not_eq_true] at hf
      simp [hf]
  · intro hf
    rw [palindrome_iterations_eq, if_pos hf]

/-- Witness for C2's amended claim at range `[1, 1]`, bound `1`, seed `1`. -/
theorem C2_witness : 1 ≤ 1 ∧ (1 : Nat) ∈ seedList 1 1 ∧
    (((1 : Nat) ∈ LychrelGraph.no_palindrome_nums 1 1 1 ↔
      LychrelGraph.palindrome_iterations ((1 : Nat) : Int) 1 = 1) ∧
    (LychrelGraph.palindrome_iterations ((1 : Nat) : Int) 1 = 1 ↔
      ((LychrelTree.lychrel_chain 1 1).2 = false ∨
        (LychrelTree.lychrel_chain 1 1).1.length = 1 + 1)) ∧
    ((LychrelTree.lychrel_chain 1 1).2 = true →
      LychrelGraph.palindrome_iterations ((1 : Nat) : Int) 1 =
        (LychrelTree.lychrel_chain 1 1).1.length - 1)) :=
  ⟨by norm_num, by rw [LychrelTree.mem_seedList]; omega,
    C2_flagged_iff 1 1 1 1 (by norm_num) (by rw [LychrelTree.mem_seedList]; omega)⟩

/-- C6 as stated is false: a negative input to `is_palindrome` yields the
ordinary result `False` rather than being rejected, and a non-positive
bound does not abort `lychrel_chain` — it returns the one-element chain. -/
theorem C6_counterexample :
    LychrelGraph.is_palindrome (-5) = false ∧
    LychrelTree.lychrel_chain 7 0 = ([7], false) :=
  ⟨by decide, rfl⟩

/-- C6 amended: the primitives perform no precondition validation.
`is_palindrome` returns `False` (an ordinary result) on every negative
input; with a non-positive bound `lychrel_chain` returns the chain `[seed]`
with exhausted status and `palindrome_iterations` returns the bound; with
`start > end` the graph builder and the flagged-seed list return empty
results; no error kind or offending value is surfaced. -/
theorem C6_no_validation :
    (∀ num : Int, num < 0 → LychrelGraph.is_palindrome num = false) ∧
    (∀ n : Nat, LychrelTree.lychrel_chain n 0 = ([n], false)) ∧
    (∀ n : Int, LychrelGraph.palindrome_iterations n 0 = 0) ∧
    (∀ s e b : Nat, e < s →
      LychrelTree.build_lychrel_graph s e b = LychrelTree.emptyGraph ∧
      LychrelGraph.no_palindrome_nums s e b = []) := by
  refine ⟨?_, ?_, ?_, ?_⟩
  · intro num h
    rw [LychrelGraph.is_palindrome, if_pos h]
  · intro n
    rfl
  · intro n
    rw [LychrelGraph.palindrome_iterations, LychrelGraph.palIterLoop, if_neg (by omega)]
  · intro s e b h
    have hempty : seedList s e = [] := by
      rw [seedList, show e + 1 - s = 0 by omega]
      rfl
    constructor
    · rw [LychrelTree.build_lychrel_graph, hempty]
      rfl
    · rw [LychrelGraph.no_palindrome_nums, hempty]
      rfl

/-- Witness for C6's amended claim at `num = -5`, seed `7`, range `[5, 3]`. -/
theorem C6_witness : (-5 : Int) < 0 ∧ (3 : Nat) < 5 ∧
    (LychrelGraph.is_palindrome (-5) = false ∧
    LychrelTree.lychrel_chain 7 0 = ([7], false) ∧
    LychrelGraph.palindrome_iterations (-5) 0 = 0 ∧
    LychrelTree.build_lychrel_graph 5 3 1 = LychrelTree.emptyGraph ∧
    LychrelGraph.no_palindrome_nums 5 3 1 = []) :=
  ⟨by norm_num, by norm_num,
    C6_no_validation.1 (-5) (by norm_num),
    C6_no_validation.2.1 7,
    C6_no_validation.2.2.1 (-5),
    (C6_no_validation.2.2.2 5 3 1 (by norm_num)).1,
    (C6_no_validation.2.2.2 5 3 1 (by norm_num)).2⟩

/-- C7: for every range `[s, e]` with `s ≤ e` and bound `b ≥ 1`, every seed
of the range has an entry in the level mapping of `build_lychrel_graph`,
and its level is exactly `0`. -/
theorem C7_seed_level_zero (s e b n : Nat) (hse : s ≤ e) (hb : 1 ≤ b)
    (h1 : s ≤ n) (h2 : n ≤ e) :
    (LychrelTree.build_lychrel_graph s e b).level n = some 0 := by
  have hn : n ∈ seedList s e := (LychrelTree.mem_seedList s e n).mpr ⟨h1, h2⟩
  obtain ⟨l, hl1, hl2⟩ := LychrelTree.build_level_le s e b n n hn 0
    (LychrelTree.lychrel_chain_head n b)
  have hl0 : l = 0 := by omega
  rw [hl0] at hl2
  exact hl2

/-- Witness for C7 at range `[1, 1]`, bound `1`, seed `1`. -/
theorem C7_witness : 1 ≤ 1 ∧
    (LychrelTree.build_lychrel_graph 1 1 1).level 1 = some 0 :=
  ⟨le_refl 1, C7_seed_level_zero 1 1 1 1 (le_refl 1) (le_refl 1) (le_refl 1) (le_refl 1)⟩

/-- C10: in the graph built over any range with any bound, both endpoints of
every adjacency edge — every key and every member of an edge-target set —
have an entry in the level mapping. -/
theorem C10_adjacency_nodes_have_level (s e b u v : Nat) (hse : s ≤ e) (hb : 1 ≤ b)
    (h : (u, v) ∈ (LychrelTree.build_lychrel_graph s e b).adjacency) :
    (∃ lu, (LychrelTree.build_lychrel_graph s e b).level u = some lu) ∧
    (∃ lv, (LychrelTree.build_lychrel_graph s e b).level v = some lv) := by
  obtain ⟨n, hn, i, hu, hv⟩ := (LychrelTree.build_adj_mem s e b u v).mp h
  obtain ⟨lu, _, hlu⟩ := LychrelTree.build_level_le s e b u n hn i hu
  obtain ⟨lv, _, hlv⟩ := LychrelTree.build_level_le s e b v n hn (i + 1) hv
  exact ⟨⟨lu, hlu⟩, ⟨lv, hlv⟩⟩

/-- Witness for C10 at range `[1, 1]`, bound `1`, edge `(1, 2)`. -/
theorem C10_witness : 1 ≤ 1 ∧
    ((1 : Nat), (2 : Nat)) ∈ (LychrelTree.build_lychrel_graph 1 1 1).adjacency ∧
    ((∃ lu, (LychrelTree.build_lychrel_graph 1 1 1).level 1 = some lu) ∧
      (∃ lv, (LychrelTree.build_lychrel_graph 1 1 1).level 2 = some lv)) := by
  have hmem : ((1 : Nat), (2 : Nat)) ∈ (LychrelTree.build_lychrel_graph 1 1 1).adjacency := by
    simp [LychrelTree.build_lychrel_graph, seedList, List.range', LychrelTree.buildStep,
      LychrelTree.lychrel_chain, LychrelTree.chainLoop, LychrelTree.is_palindrome,
      LychrelTree.reverse_num, strRep, natDigits, LychrelTree.processChain,
      LychrelTree.emptyGraph]
  exact ⟨le_refl 1, hmem,
    C10_adjacency_nodes_have_level 1 1 1 1 2 (le_refl 1) (le_refl 1) hmem⟩

/-- C3: every edge `u → v` of the adjacency produced by
`build_lychrel_graph` is realized by a chain containing `u` immediately
followed by `v`, and `level v ≤ level u + 1`. -/
theorem C3_edge_realized_level (s e b u v : Nat) (hb : 1 ≤ b)
    (h : (u, v) ∈ (LychrelTree.build_lychrel_graph s e b).adjacency) :
    (∃ n ∈ seedList s e, ∃ i, (LychrelTree.lychrel_chain n b).1[i]? = some u ∧
      (LychrelTree.lychrel_chain n b).1[i + 1]? = some v) ∧
    ∀ lu lv, (LychrelTree.build_lychrel_graph s e b).level u = some lu →
      (LychrelTree.build_lychrel_graph s e b).level v = some lv → lv ≤ lu + 1 := by
  have hreal := (LychrelTree.build_adj_mem s e b u v).mp h
  refine ⟨hreal, ?_⟩
  intro lu lv hlu hlv
  obtain ⟨n1, hn1, i, hu1, hv1⟩ := hreal
  have hstep := LychrelTree.lychrel_chain_consec n1 b i u v hu1 hv1
  obtain ⟨n0, hn0, hu0⟩ := LychrelTree.build_level_attained s e b u lu hlu
  have hlen_u := getElem_some_lt _ lu u hu0
  have hi1 := getElem_some_lt _ (i + 1) v hv1
  by_cases hcase : lu + 1 < (LychrelTree.lychrel_chain n0 b).1.length
  · -- u has a successor inside the chain attaining its level; determinism
    -- makes that successor v, so v occurs at index lu + 1
    obtain ⟨w, hw⟩ : ∃ w, (LychrelTree.lychrel_chain n0 b).1[lu + 1]? = some w :=
      ⟨_, List.getElem?_eq_getElem hcase⟩
    have hw_step := LychrelTree.lychrel_chain_consec n0 b lu u w hu0 hw
    have hwv : w = v := by rw [hw_step, hstep]
    rw [hwv] at hw
    exact LychrelTree.build_level_min s e b v lv hlv n0 hn0 (lu + 1) hw
  · -- u is the final element of the chain attaining its level
    have hlu_last : lu = (LychrelTree.lychrel_chain n0 b).1.length - 1 := by omega
    obtain ⟨hlen2, _⟩ := LychrelTree.lychrel_chain_length n0 b hb
    by_cases hf : (LychrelTree.lychrel_chain n0 b).2 = true
    · -- the chain found a palindrome, so u itself is a palindrome;
      -- hence the realizing occurrence of u must be a seed position
      obtain ⟨x, hx1, hx2⟩ := LychrelTree.lychrel_chain_last_pal n0 b hf
      rw [List.getLast?_eq_getElem?, ← hlu_last, hu0, Option.some_inj] at hx1
      rw [← hx1] at hx2
      by_cases hi : 1 ≤ i
      · have hnp := LychrelTree.lychrel_chain_mid_not_pal n1 b i u hi (by omega) hu1
        rw [hnp] at hx2
        exact absurd hx2 (by simp)
      · have hi0 : i = 0 := by omega
        subst hi0
        have hmin := LychrelTree.build_level_min s e b u lu hlu n1 hn1 0 hu1
        -- so lu = 0, contradicting lu = length - 1 ≥ 1
        omega
    · -- the chain attaining u's level was exhausted: lu = b, but the edge
      -- occurrence of u sits at an index < b, contradicting minimality
      simp only [Bool.not_eq_true] at hf
      have hlen0 := LychrelTree.lychrel_chain_exhausted_length n0 b hf
      obtain ⟨_, hlen1⟩ := LychrelTree.lychrel_chain_length n1 b hb
      have hmin := LychrelTree.build_level_min s e b u lu hlu n1 hn1 i hu1
      omega

/-- Witness for C3 at range `[1, 1]`, bound `1`, edge `(1, 2)`. -/
theorem C3_witness : 1 ≤ 1 ∧
    ((1 : Nat), (2 : Nat)) ∈ (LychrelTree.build_lychrel_graph 1 1 1).adjacency ∧
    ((∃ n ∈ seedList 1 1, ∃ i, (LychrelTree.lychrel_chain n 1).1[i]? = some 1 ∧
      (LychrelTree.lychrel_chain n 1).1[i + 1]? = some 2) ∧
    ∀ lu lv, (LychrelTree.build_lychrel_graph 1 1 1).level 1 = some lu →
      (LychrelTree.build_lychrel_graph 1 1 1).level 2 = some lv → lv ≤ lu + 1) := by
  have hmem : ((1 : Nat), (2 : Nat)) ∈ (LychrelTree.build_lychrel_graph 1 1 1).adjacency := by
    simp [LychrelTree.build_lychrel_graph, seedList, List.range', LychrelTree.buildStep,
      LychrelTree.lychrel_chain, LychrelTree.chainLoop, LychrelTree.is_palindrome,
      LychrelTree.reverse_num, strRep, natDigits, LychrelTree.processChain,
      LychrelTree.emptyGraph]
  exact ⟨le_refl 1, hmem, C3_edge_realized_level 1 1 1 1 2 (le_refl 1) hmem⟩

/-- C5 as stated is false: over range `[19, 19]` with bound `1` the chain is
`[19, 110]`, exhausted; node `110` is in the graph and has no outgoing
edge, yet it is not a palindrome — so it is neither a terminal palindrome
of a chain nor a palindromic seed. -/
theorem C5_counterexample :
    (LychrelTree.build_lychrel_graph 19 19 1).level 110 = some 1 ∧
    (LychrelTree.build_lychrel_graph 19 19 1).adjacency.filter
      (fun p => p.1 = 110) = ∅ ∧
    LychrelTree.is_palindrome 110 = false := by
  refine ⟨?_, ?_, ?_⟩ <;>
    simp [LychrelTree.build_lychrel_graph, seedList, List.range', LychrelTree.buildStep,
      LychrelTree.lychrel_chain, LychrelTree.chainLoop, LychrelTree.is_palindrome,
      LychrelTree.reverse_num, strRep, natDigits, LychrelTree.processChain,
      LychrelTree.emptyGraph, LychrelTree.updateLevel, Finset.filter_insert] <;>
    decide

/-- C5 amended: every node of the level mapping with no outgoing edge in
adjacency is the last element of some generated chain — its terminal
palindrome when that chain reported success, the terminal element of an
exhausted chain otherwise. -/
theorem C5_sink_is_terminal (s e b x : Nat) (hb : 1 ≤ b)
    (hx : (LychrelTree.build_lychrel_graph s e b).level x ≠ none)
    (hout : ∀ w, (x, w) ∉ (LychrelTree.build_lychrel_graph s e b).adjacency) :
    ∃ n ∈ seedList s e, (LychrelTree.lychrel_chain n b).1.getLast? = some x ∧
      ((LychrelTree.lychrel_chain n b).2 = true →
        LychrelTree.is_palindrome x = true) := by
  obtain ⟨l, hl⟩ := Option.ne_none_iff_exists'.mp hx
  obtain ⟨n, hn, hget⟩ := LychrelTree.build_level_attained s e b x l hl
  have hllen := getElem_some_lt _ l x hget
  by_cases hcase : l + 1 < (LychrelTree.lychrel_chain n b).1.length
  · exfalso
    obtain ⟨w, hw⟩ : ∃ w, (LychrelTree.lychrel_chain n b).1[l + 1]? = some w :=
      ⟨_, List.getElem?_eq_getElem hcase⟩
    have hedge : (x, w) ∈ (LychrelTree.build_lychrel_graph s e b).adjacency :=
      (LychrelTree.build_adj_mem s e b x w).mpr ⟨n, hn, l, hget, hw⟩
    exact hout _ hedge
  · have hlast : l = (LychrelTree.lychrel_chain n b).1.length - 1 := by omega
    refine ⟨n, hn, ?_, ?_⟩
    · rw [List.getLast?_eq_getElem?, ← hlast]
      exact hget
    · intro hf
      obtain ⟨y, hy1, hy2⟩ := LychrelTree.lychrel_chain_last_pal n b hf
      rw [List.getLast?_eq_getElem?, ← hlast, hget, Option.some_inj] at hy1
      rw [← hy1] at hy2
      exact hy2

/-- Witness for C5's amended claim at range `[19, 19]`, bound `1`,
node `110`. -/
theorem C5_witness : 1 ≤ 1 ∧
    (LychrelTree.build_lychrel_graph 19 19 1).level 110 ≠ none ∧
    (∀ w, (110, w) ∉ (LychrelTree.build_lychrel_graph 19 19 1).adjacency) ∧
    ∃ n ∈ seedList 19 19, (LychrelTree.lychrel_chain n 1).1.getLast? = some 110 ∧
      ((LychrelTree.lychrel_chain n 1).2 = true →
        LychrelTree.is_palindrome 110 = true) := by
  have hx : (LychrelTree.build_lychrel_graph 19 19 1).level 110 ≠ none := by
    simp [LychrelTree.build_lychrel_graph, seedList, List.range', LychrelTree.buildStep,
      LychrelTree.lychrel_chain, LychrelTree.chainLoop, LychrelTree.is_palindrome,
      LychrelTree.reverse_num, strRep, natDigits, LychrelTree.processChain,
      LychrelTree.emptyGraph, LychrelTree.updateLevel]
  have hout : ∀ w, ((110 : Nat), w) ∉ (LychrelTree.build_lychrel_graph 19 19 1).adjacency := by
    intro w
    simp [LychrelTree.build_lychrel_graph, seedList, List.range', LychrelTree.buildStep,
      LychrelTree.lychrel_chain, LychrelTree.chainLoop, LychrelTree.is_palindrome,
      LychrelTree.reverse_num, strRep, natDigits, LychrelTree.processChain,
      LychrelTree.emptyGraph, Prod.mk.injEq]
  exact ⟨le_refl 1, hx, hout, C5_sink_is_terminal 19 19 1 110 (le_refl 1) hx hout⟩

/-- C4: building the graph over `[s, e]` in one pass equals building over
the sub-ranges `[s, m]` and `[m + 1, e]` separately and merging by edge-set
union, pointwise level minimum and flagged-seed union; moreover the seed
fold is invariant under any permutation of its seed list, and the builder
is exactly that fold over `range(start, end + 1)`. -/
theorem C4_build_merge (s m e b : Nat) (h1 : s ≤ m) (h2 : m ≤ e) :
    LychrelTree.build_lychrel_graph s e b =
      LychrelTree.mergeG (LychrelTree.build_lychrel_graph s m b)
        (LychrelTree.build_lychrel_graph (m + 1) e b) ∧
    (∀ L1 L2 : List Nat, L1.Perm L2 →
      LychrelTree.buildFromList b L1 = LychrelTree.buildFromList b L2) ∧
    LychrelTree.build_lychrel_graph s e b = LychrelTree.buildFromList b (seedList s e) :=
  ⟨LychrelTree.build_split s m e b h1 h2,
    fun _ _ h => LychrelTree.buildFromList_perm b h, rfl⟩

/-- Witness for C4 at `s = 1`, `m = 1`, `e = 2`, `b = 1`, with the
permutation `[1, 2] ~ [2, 1]`. -/
theorem C4_witness : 1 ≤ 1 ∧ (1 : Nat) ≤ 2 ∧
    (LychrelTree.build_lychrel_graph 1 2 1 =
      LychrelTree.mergeG (LychrelTree.build_lychrel_graph 1 1 1)
        (LychrelTree.build_lychrel_graph 2 2 1)) ∧
    LychrelTree.buildFromList 1 [1, 2] = LychrelTree.buildFromList 1 [2, 1] :=
  ⟨le_refl 1, by norm_num,
    (C4_build_merge 1 1 2 1 (le_refl 1) (by norm_num)).1,
    (C4_build_merge 1 1 2 1 (le_refl 1) (by norm_num)).2.1 [1, 2] [2, 1]
      (List.Perm.swap 2 1 [])⟩
